import Mathlib

/-!
Verification of the batch substituter `replace_string.py`.

The program scans a directory for files ending in ".msh" and, in each such
file, replaces every occurrence of "periodic1" by "periodicx", "periodic2"
by "periodicz" and "periodic3" by "periodicy", via
`re.sub(re.escape(old), new, content)` applied one pair at a time.

File contents are modelled as `List Char`.  A single `re.sub` call with an
escaped (hence literal) pattern and nonempty `old` performs leftmost,
non-overlapping, global literal replacement; `replaceAll` below embeds it.
The filesystem side of the program (directory check, enumeration, the
per-file try/except) is embedded by `processEntry` and
`replacePeriodicInMsh` further down.
-/

namespace ReplaceString

/-- Worker for literal global replacement.  `subGo old new k s` scans `s`
left to right; the counter `k` is the number of characters still to be
consumed silently because they belong to a match whose replacement has
already been emitted.  At `k = 0` it tries to match `old` at the current
position: on a match it emits `new` and consumes the match, otherwise it
emits the current character and moves on. -/
def subGo (old new : List Char) : Nat → List Char → List Char
  | k + 1, _ :: cs => subGo old new k cs
  | _, [] => []
  | 0, c :: cs =>
      if old.isPrefixOf (c :: cs) then new ++ subGo old new (old.length - 1) cs
      else c :: subGo old new 0 cs

/-- Embedding of `re.sub(re.escape(old), new, s)` for a nonempty literal
token `old` whose replacement `new` contains no backslash: leftmost,
non-overlapping, global literal replacement of `old` by `new` in `s`.
(For `old = []` the program never calls the engine; we return `s`.) -/
def replaceAll (old new s : List Char) : List Char :=
  if old.isEmpty then s else subGo old new 0 s

/-- The substitution table of the program (`replacements` in the source),
in its textual order. -/
def replacements : List (List Char × List Char) :=
  [("periodic1".toList, "periodicx".toList),
   ("periodic2".toList, "periodicz".toList),
   ("periodic3".toList, "periodicy".toList)]

/-- Embedding of the loop
`for old, new in replacements.items(): modified_content = re.sub(...)`:
the pairs are applied one at a time, in table order, each pass operating
on the output of the previous pass. -/
def applyReplacements (content : List Char) : List Char :=
  replacements.foldl (fun acc p => replaceAll p.1 p.2 acc) content

/-- First old token of the table. -/
def old1 : List Char := "periodic1".toList

/-- First new token of the table. -/
def new1 : List Char := "periodicx".toList

/-- Second old token of the table. -/
def old2 : List Char := "periodic2".toList

/-- Second new token of the table. -/
def new2 : List Char := "periodicz".toList

/-- Third old token of the table. -/
def old3 : List Char := "periodic3".toList

/-- Third new token of the table. -/
def new3 : List Char := "periodicy".toList

/-- Worker for splitting on a nonempty literal separator, mirroring the
scan of `subGo`: it produces the pieces of the input lying between the
non-overlapping leftmost matches of the separator. -/
def splitGo (sep : List Char) : Nat → List Char → List (List Char)
  | k + 1, _ :: cs => splitGo sep k cs
  | _, [] => [[]]
  | 0, c :: cs =>
      if sep.isPrefixOf (c :: cs) then [] :: splitGo sep (sep.length - 1) cs
      else
        match splitGo sep 0 cs with
        | [] => [[c]]
        | p :: ps => (c :: p) :: ps

/-- Modelled from the spec: Python `s.split(sep)` for a nonempty literal
separator (for an empty separator Python raises; we return `[s]`). -/
def splitOnTok (sep s : List Char) : List (List Char) :=
  if sep.isEmpty then [s] else splitGo sep 0 s

/-- Modelled from the spec: Python `sep.join(pieces)`. -/
def joinWith (sep : List Char) : List (List Char) → List Char
  | [] => []
  | [p] => p
  | p :: ps => p ++ sep ++ joinWith sep ps

/-- Modelled from the spec (claim C9): the naive literal reference engine
`str.replace(old, new)`, written as `new.join(s.split(old))`. -/
def strReplace (old new s : List Char) : List Char :=
  joinWith new (splitOnTok old s)

/-- Modelled from the spec (claim C9): the processing `re.sub` applies to
its replacement argument.  A replacement template without a backslash
expands to itself; templates containing a backslash (escape sequences and
group references) are outside the fragment this program uses and are left
unmodelled (`none`). -/
def templExpand : List Char → Option (List Char)
  | [] => some []
  | c :: rest => if c = '\\' then none else (templExpand rest).map fun r => c :: r

/-- Embedding of `re.sub(re.escape(old), new, s)` including the treatment
of the replacement template: the escaped pattern matches exactly the
literal `old`, and the template is expanded before substitution. -/
def reSubEscaped (old new s : List Char) : Option (List Char) :=
  (templExpand new).map fun r => replaceAll old r s

/-- Failure classification of the per-file `try` block, used as the error
description printed by the `except` branch. -/
inductive ErrKind
  | readOrDecodeError
  | writeError
  | isADirectory
  deriving DecidableEq

/-- One console line printed by the program. -/
inductive Msg
  | dirNotFound
  | processed (filename : List Char)
  | errorProcessing (filename : List Char) (err : ErrKind)
  deriving DecidableEq

/-- A regular file: its name, its text content, and whether the two `open`
calls of the program succeed on it (`readOk` covers opening for read and
decoding the bytes, `writeOk` covers opening for write; a denied open for
write happens before truncation, so the content is then untouched). -/
structure FSFile where
  name : List Char
  content : List Char
  readOk : Bool
  writeOk : Bool
  deriving DecidableEq

/-- A directory entry as returned by `os.listdir`: a regular file or a
subdirectory (with its name).  Nothing below a subdirectory is modelled
because the program never descends into one. -/
inductive DirEntry
  | file (f : FSFile)
  | subdir (name : List Char)
  deriving DecidableEq

/-- The suffix the program filters on. -/
def mshSuffix : List Char := ".msh".toList

/-- Embedding of `filename.endswith(".msh")`. -/
def endsWithMsh (name : List Char) : Bool := mshSuffix.isSuffixOf name

/-- Embedding of one iteration of the loop body of
`replace_periodic_in_msh`: entries whose name does not end in ".msh" are
skipped with no output; for the rest the program opens, reads, substitutes
and writes back, printing one success line, and any failure — unreadable or
undecodable file, unwritable file, or the entry being a directory, on which
`open` raises `IsADirectoryError` — is caught by the `except` branch, which
prints one error line naming the entry and leaves it unchanged. -/
def processEntry : DirEntry → DirEntry × List Msg
  | DirEntry.subdir n =>
      if endsWithMsh n then
        (DirEntry.subdir n, [Msg.errorProcessing n ErrKind.isADirectory])
      else (DirEntry.subdir n, [])
  | DirEntry.file f =>
      if endsWithMsh f.name then
        if f.readOk then
          if f.writeOk then
            (DirEntry.file { f with content := applyReplacements f.content },
             [Msg.processed f.name])
          else (DirEntry.file f, [Msg.errorProcessing f.name ErrKind.writeError])
        else (DirEntry.file f, [Msg.errorProcessing f.name ErrKind.readOrDecodeError])
      else (DirEntry.file f, [])

/-- The filesystem as far as the program can touch it: the target directory
(`none` when it does not exist or is not a directory, i.e. when
`os.path.isdir` is false) and the files elsewhere on disk, which the
program never names. -/
structure FileSys where
  target : Option (List DirEntry)
  elsewhere : List FSFile
  deriving DecidableEq

/-- Embedding of `replace_periodic_in_msh`: on a missing target directory
it prints one error line and returns; otherwise it processes the listed
entries in order, collecting the per-entry filesystem updates and console
lines.  Entries are processed independently, so the sequential loop is a
map over the listing. -/
def replacePeriodicInMsh (fs : FileSys) : FileSys × List Msg :=
  match fs.target with
  | none => (fs, [Msg.dirNotFound])
  | some entries =>
      ({ fs with target := some (entries.map fun e => (processEntry e).1) },
       (entries.map fun e => (processEntry e).2).flatten)

/-- Test fixture: the `a.msh` file of the spec scenario. -/
def fileA : FSFile :=
  { name := "a.msh".toList, content := "periodic1 periodic2 periodic3".toList,
    readOk := true, writeOk := true }

/-- Test fixture: `a.msh` after the run. -/
def fileA2 : FSFile :=
  { name := "a.msh".toList, content := "periodicx periodicz periodicy".toList,
    readOk := true, writeOk := true }

/-- Test fixture: the `b.txt` file of the spec scenario. -/
def fileB : FSFile :=
  { name := "b.txt".toList, content := "periodic1".toList,
    readOk := true, writeOk := true }

/-- Test fixture: an unreadable matching file. -/
def fileBad : FSFile :=
  { name := "bad.msh".toList, content := "periodic1".toList,
    readOk := false, writeOk := true }

/-- Test fixture: a valid matching file. -/
def fileGood : FSFile :=
  { name := "good.msh".toList, content := "periodic1".toList,
    readOk := true, writeOk := true }

/-- Test fixture: a matching file containing no old token. -/
def filePlain : FSFile :=
  { name := "plain.msh".toList, content := "hello world".toList,
    readOk := true, writeOk := true }

/-- Test fixture: a non-matching file. -/
def fileNotes : FSFile :=
  { name := "notes.txt".toList, content := "periodic1".toList,
    readOk := true, writeOk := true }

theorem subGo_nil (old new : List Char) (k : Nat) : subGo old new k [] = [] := by
  cases k <;> rfl

theorem subGo_succ (old new : List Char) (k : Nat) (c : Char) (cs : List Char) :
    subGo old new (k + 1) (c :: cs) = subGo old new k cs := rfl

theorem subGo_zero_cons (old new : List Char) (c : Char) (cs : List Char) :
    subGo old new 0 (c :: cs) =
      if old.isPrefixOf (c :: cs) then new ++ subGo old new (old.length - 1) cs
      else c :: subGo old new 0 cs := rfl

theorem subGo_eq_drop (old new : List Char) :
    ∀ (s : List Char) (k : Nat), subGo old new k s = subGo old new 0 (s.drop k) := by
  intro s
  induction s with
  | nil => intro k; rw [subGo_nil, List.drop_nil, subGo_nil]
  | cons c cs ih =>
      intro k
      cases k with
      | zero => rfl
      | succ j => rw [subGo_succ, ih j, List.drop_succ_cons]

theorem replaceAll_nil (old new : List Char) : replaceAll old new [] = [] := by
  unfold replaceAll
  rw [subGo_nil]
  split <;> rfl

theorem replaceAll_cons (old new : List Char) (h : old ≠ []) (c : Char) (cs : List Char) :
    replaceAll old new (c :: cs) =
      if old.isPrefixOf (c :: cs) then
        new ++ replaceAll old new (List.drop old.length (c :: cs))
      else c :: replaceAll old new cs := by
  have hne : old.isEmpty = false := by
    cases old with
    | nil => exact absurd rfl h
    | cons a as => rfl
  have hlen : old.length = (old.length - 1) + 1 := by
    cases old with
    | nil => exact absurd rfl h
    | cons a as => simp
  unfold replaceAll
  rw [hne]
  simp only [Bool.false_eq_true, if_false]
  rw [subGo_zero_cons]
  rw [subGo_eq_drop old new cs (old.length - 1)]
  rw [hlen, List.drop_succ_cons]
  simp

theorem pref_total {l₁ l₂ l₃ : List Char} (h₁ : l₁ <+: l₃) (h₂ : l₂ <+: l₃) :
    l₁ <+: l₂ ∨ l₂ <+: l₁ :=
  List.prefix_or_prefix_of_prefix h₁ h₂

theorem pref_eq_len {l₁ l₂ : List Char} (h : l₁ <+: l₂) (hl : l₁.length = l₂.length) :
    l₁ = l₂ :=
  List.IsPrefix.eq_of_length h hl

theorem suff_to_inf {l₁ l₂ : List Char} (h : l₁ <:+ l₂) : l₁ <:+: l₂ :=
  List.IsSuffix.isInfix h

theorem pref_to_inf {l₁ l₂ : List Char} (h : l₁ <+: l₂) : l₁ <:+: l₂ :=
  List.IsPrefix.isInfix h

theorem inf_trans {l₁ l₂ l₃ : List Char} (h₁ : l₁ <:+: l₂) (h₂ : l₂ <:+: l₃) :
    l₁ <:+: l₃ :=
  List.IsInfix.trans h₁ h₂

theorem pref_of_bool {l₁ l₂ : List Char} : l₁.isPrefixOf l₂ = true ↔ l₁ <+: l₂ :=
  List.isPrefixOf_iff_prefix

theorem replaceAll_nil_old (new s : List Char) : replaceAll [] new s = s := rfl

/-- An occurrence of `x` inside `xs ++ ys` lies inside `xs`, inside `ys`, or
straddles the border, in which case `x` splits into a nonempty suffix of `xs`
followed by a nonempty prefix of `ys`. -/
theorem infix_append_cases {x xs ys : List Char} (h : x <:+: xs ++ ys) :
    x <:+: xs ∨ x <:+: ys ∨
      ∃ t₁ t₂, x = t₁ ++ t₂ ∧ t₁ ≠ [] ∧ t₂ ≠ [] ∧ t₁ <:+ xs ∧ t₂ <+: ys := by
  obtain ⟨p, q, hpq⟩ := h
  rw [List.append_assoc] at hpq
  rcases List.append_eq_append_iff.1 hpq with ⟨a, ha1, ha2⟩ | ⟨c, hc1, hc2⟩
  · rcases List.append_eq_append_iff.1 ha2 with ⟨b, hb1, hb2⟩ | ⟨d, hd1, hd2⟩
    · left
      exact ⟨p, b, by rw [ha1, hb1, List.append_assoc]⟩
    · by_cases hane : a = []
      · right; left
        subst hane
        simp only [List.nil_append] at hd1
        exact ⟨[], q, by rw [List.nil_append, hd1, hd2]⟩
      · by_cases hdne : d = []
        · left
          subst hdne
          rw [List.append_nil] at hd1
          exact ⟨p, [], by rw [List.append_nil, ha1, hd1]⟩
        · right; right
          exact ⟨a, d, hd1, hane, hdne, ⟨p, ha1.symm⟩, ⟨q, hd2.symm⟩⟩
  · right; left
    exact ⟨c, q, by rw [hc2, List.append_assoc]⟩

/-- Any nonempty suffix `t` of a token `tok` that is a prefix of the output
of `replaceAll old new s` was already a prefix of `s`, provided no nonempty
suffix of `tok` is a prefix of `new` and `tok` is no longer than `new`:
a replacement pass cannot conjure up a fresh beginning of such a token. -/
theorem prefix_transfer (old new tok : List Char)
    (hlen : tok.length ≤ new.length)
    (h4 : ∀ t ∈ tok.tails, t ≠ [] → ¬ t <+: new) :
    ∀ n s, s.length ≤ n → ∀ t, t <:+ tok → t ≠ [] →
      t <+: replaceAll old new s → t <+: s := by
  by_cases hold : old = []
  · intro n s _ t _ _ hp
    rw [hold, replaceAll_nil_old] at hp
    exact hp
  · intro n
    induction n with
    | zero =>
        intro s hs t _ htne hp
        have hsnil : s = [] := List.length_eq_zero.1 (Nat.le_zero.1 hs)
        subst hsnil
        rw [replaceAll_nil] at hp
        exact absurd (List.prefix_nil.1 hp) htne
    | succ n ih =>
        intro s hs t hst htne hp
        cases s with
        | nil =>
            rw [replaceAll_nil] at hp
            exact absurd (List.prefix_nil.1 hp) htne
        | cons c cs =>
            rw [replaceAll_cons old new hold] at hp
            by_cases hm : old.isPrefixOf (c :: cs)
            · rw [if_pos hm] at hp
              rcases pref_total hp ⟨_, rfl⟩ with htn | hnt
              · exact absurd htn (h4 t ((List.mem_tails t tok).2 hst) htne)
              · have h1 : new.length ≤ t.length := hnt.length_le
                have h2 : t.length ≤ tok.length := hst.length_le
                have ht_eq : t = new :=
                  (pref_eq_len hnt (Nat.le_antisymm h1 (Nat.le_trans h2 hlen))).symm
                have : t <+: new := ht_eq ▸ ⟨[], List.append_nil t⟩
                exact absurd this (h4 t ((List.mem_tails t tok).2 hst) htne)
            · rw [if_neg hm] at hp
              cases t with
              | nil => exact absurd rfl htne
              | cons t0 ts =>
                  rw [List.cons_prefix_cons] at hp
                  obtain ⟨rfl, hts⟩ := hp
                  by_cases htsne : ts = []
                  · subst htsne
                    exact ⟨cs, rfl⟩
                  · have hts_suf : ts <:+ tok :=
                      List.IsSuffix.trans ⟨[t0], rfl⟩ hst
                    have hcs : cs.length ≤ n := by
                      have := hs
                      simp only [List.length_cons] at this
                      omega
                    have := ih cs hcs ts hts_suf htsne hts
                    exact List.cons_prefix_cons.2 ⟨rfl, this⟩

/-- Core occurrence lemma.  If the tokens do not overlap — `tok` does not
occur in `new`, no nonempty suffix of `new` begins `tok`, no nonempty suffix
of `tok` begins `new`, and `tok` is no longer than `new` — then the output of
`replaceAll old new s` contains no occurrence of `tok`, provided either
`tok = old` (the pass removes its own token) or `tok` did not occur in `s`
(the pass cannot create the token). -/
theorem not_infix_replaceAll (old new tok : List Char)
    (h1 : tok ≠ [])
    (h2 : ¬ tok <:+: new)
    (h3 : ∀ t ∈ new.tails, t ≠ [] → ¬ t <+: tok)
    (h4 : ∀ t ∈ tok.tails, t ≠ [] → ¬ t <+: new)
    (hlen : tok.length ≤ new.length) :
    ∀ n s, s.length ≤ n → (tok = old ∨ ¬ tok <:+: s) →
      ¬ tok <:+: replaceAll old new s := by
  by_cases hold : old = []
  · intro n s _ hor
    rw [hold, replaceAll_nil_old]
    rcases hor with rfl | hno
    · exact absurd hold h1
    · exact hno
  · intro n
    induction n with
    | zero =>
        intro s hs _
        have hsnil : s = [] := List.length_eq_zero.1 (Nat.le_zero.1 hs)
        subst hsnil
        rw [replaceAll_nil]
        intro hinf
        exact h1 (List.infix_nil.1 hinf)
    | succ n ih =>
        intro s hs hor
        cases s with
        | nil =>
            rw [replaceAll_nil]
            intro hinf
            exact h1 (List.infix_nil.1 hinf)
        | cons c cs =>
            rw [replaceAll_cons old new hold]
            by_cases hm : old.isPrefixOf (c :: cs)
            · rw [if_pos hm]
              intro hinf
              rcases infix_append_cases hinf with hxs | hys | ⟨t₁, t₂, heq, ht₁ne, ht₂ne, ht₁suf, _⟩
              · exact h2 hxs
              · have hdlen : (List.drop old.length (c :: cs)).length ≤ n := by
                  have h0 : 0 < old.length := List.length_pos.2 hold
                  have := hs
                  simp only [List.length_cons, List.length_drop] at this ⊢
                  omega
                have hor' : tok = old ∨ ¬ tok <:+: List.drop old.length (c :: cs) := by
                  rcases hor with h | h
                  · exact Or.inl h
                  · exact Or.inr fun hc =>
                      h (inf_trans hc (suff_to_inf (List.drop_suffix _ _)))
                exact ih (List.drop old.length (c :: cs)) hdlen hor' hys
              · exact h3 t₁ ((List.mem_tails t₁ new).2 ht₁suf) ht₁ne ⟨t₂, heq.symm⟩
            · rw [if_neg hm]
              intro hinf
              rcases List.infix_cons_iff.1 hinf with hpre | htail
              · cases tok with
                | nil => exact h1 rfl
                | cons t0 ts =>
                    rw [List.cons_prefix_cons] at hpre
                    obtain ⟨rfl, hts⟩ := hpre
                    have htoks : (t0 :: ts) <+: (t0 :: cs) := by
                      by_cases htsne : ts = []
                      · subst htsne
                        exact ⟨cs, rfl⟩
                      · have hts_suf : ts <:+ t0 :: ts := ⟨[t0], rfl⟩
                        have := prefix_transfer old new (t0 :: ts) hlen h4
                          cs.length cs (Nat.le_refl _) ts hts_suf htsne hts
                        exact List.cons_prefix_cons.2 ⟨rfl, this⟩
                    rcases hor with h | h
                    · exact hm (pref_of_bool.2 (h ▸ htoks))
                    · exact h (pref_to_inf htoks)
              · have hcslen : cs.length ≤ n := by
                  have := hs
                  simp only [List.length_cons] at this
                  omega
                have hor' : tok = old ∨ ¬ tok <:+: cs := by
                  rcases hor with h | h
                  · exact Or.inl h
                  · exact Or.inr fun hc => h (List.infix_cons_iff.2 (Or.inr hc))
                exact ih cs hcslen hor' htail

/-- A pass whose token does not occur in the content leaves the content
unchanged. -/
theorem replaceAll_eq_of_no_occ (old new : List Char) :
    ∀ s, ¬ old <:+: s → replaceAll old new s = s := by
  by_cases hold : old = []
  · intro s _
    rw [hold, replaceAll_nil_old]
  · intro s
    induction s with
    | nil => intro _; exact replaceAll_nil old new
    | cons c cs ih =>
        intro hno
        rw [replaceAll_cons old new hold]
        have hm : ¬ old.isPrefixOf (c :: cs) := by
          intro hb
          exact hno (pref_to_inf (pref_of_bool.1 hb))
        rw [if_neg hm]
        rw [ih fun hc => hno (List.infix_cons_iff.2 (Or.inr hc))]

theorem applyReplacements_eq (s : List Char) :
    applyReplacements s =
      replaceAll old3 new3 (replaceAll old2 new2 (replaceAll old1 new1 s)) := rfl

theorem no_old1_applyReplacements (s : List Char) : ¬ old1 <:+: applyReplacements s := by
  have s1 : ¬ old1 <:+: replaceAll old1 new1 s :=
    not_infix_replaceAll old1 new1 old1 (by decide) (by decide) (by decide) (by decide)
      (by decide) s.length s (Nat.le_refl _) (Or.inl rfl)
  have s2 : ¬ old1 <:+: replaceAll old2 new2 (replaceAll old1 new1 s) :=
    not_infix_replaceAll old2 new2 old1 (by decide) (by decide) (by decide) (by decide)
      (by decide) _ _ (Nat.le_refl _) (Or.inr s1)
  have s3 : ¬ old1 <:+: replaceAll old3 new3 (replaceAll old2 new2 (replaceAll old1 new1 s)) :=
    not_infix_replaceAll old3 new3 old1 (by decide) (by decide) (by decide) (by decide)
      (by decide) _ _ (Nat.le_refl _) (Or.inr s2)
  rw [applyReplacements_eq s]
  exact s3

theorem no_old2_applyReplacements (s : List Char) : ¬ old2 <:+: applyReplacements s := by
  have s2 : ¬ old2 <:+: replaceAll old2 new2 (replaceAll old1 new1 s) :=
    not_infix_replaceAll old2 new2 old2 (by decide) (by decide) (by decide) (by decide)
      (by decide) _ _ (Nat.le_refl _) (Or.inl rfl)
  have s3 : ¬ old2 <:+: replaceAll old3 new3 (replaceAll old2 new2 (replaceAll old1 new1 s)) :=
    not_infix_replaceAll old3 new3 old2 (by decide) (by decide) (by decide) (by decide)
      (by decide) _ _ (Nat.le_refl _) (Or.inr s2)
  rw [applyReplacements_eq s]
  exact s3

theorem no_old3_applyReplacements (s : List Char) : ¬ old3 <:+: applyReplacements s := by
  rw [applyReplacements_eq s]
  exact not_infix_replaceAll old3 new3 old3 (by decide) (by decide) (by decide) (by decide)
    (by decide) _ _ (Nat.le_refl _) (Or.inl rfl)

theorem applyReplacements_fixpoint (t : List Char)
    (h1 : ¬ old1 <:+: t) (h2 : ¬ old2 <:+: t) (h3 : ¬ old3 <:+: t) :
    applyReplacements t = t := by
  rw [applyReplacements_eq t]
  rw [replaceAll_eq_of_no_occ old1 new1 t h1]
  rw [replaceAll_eq_of_no_occ old2 new2 t h2]
  rw [replaceAll_eq_of_no_occ old3 new3 t h3]

theorem splitGo_nil (sep : List Char) (k : Nat) : splitGo sep k [] = [[]] := by
  cases k <;> rfl

theorem splitGo_succ (sep : List Char) (k : Nat) (c : Char) (cs : List Char) :
    splitGo sep (k + 1) (c :: cs) = splitGo sep k cs := rfl

theorem splitGo_zero_cons (sep : List Char) (c : Char) (cs : List Char) :
    splitGo sep 0 (c :: cs) =
      if sep.isPrefixOf (c :: cs) then [] :: splitGo sep (sep.length - 1) cs
      else
        match splitGo sep 0 cs with
        | [] => [[c]]
        | p :: ps => (c :: p) :: ps := rfl

theorem splitGo_eq_drop (sep : List Char) :
    ∀ (s : List Char) (k : Nat), splitGo sep k s = splitGo sep 0 (s.drop k) := by
  intro s
  induction s with
  | nil => intro k; rw [splitGo_nil, List.drop_nil, splitGo_nil]
  | cons c cs ih =>
      intro k
      cases k with
      | zero => rfl
      | succ j => rw [splitGo_succ, ih j, List.drop_succ_cons]

theorem splitGo_ne_nil (sep : List Char) : ∀ (s : List Char) (k : Nat), splitGo sep k s ≠ [] := by
  intro s
  induction s with
  | nil => intro k; rw [splitGo_nil]; simp
  | cons c cs ih =>
      intro k
      cases k with
      | succ j => rw [splitGo_succ]; exact ih j
      | zero =>
          rw [splitGo_zero_cons]
          by_cases hm : sep.isPrefixOf (c :: cs)
          · rw [if_pos hm]; simp
          · rw [if_neg hm]
            cases hs : splitGo sep 0 cs with
            | nil => simp
            | cons p ps => simp

theorem splitOnTok_nil (sep : List Char) (h : sep ≠ []) : splitOnTok sep [] = [[]] := by
  have hne : sep.isEmpty = false := by
    cases sep with
    | nil => exact absurd rfl h
    | cons a as => rfl
  unfold splitOnTok
  rw [hne]
  simp only [Bool.false_eq_true, if_false]
  exact splitGo_nil sep 0

theorem splitOnTok_ne_nil (sep s : List Char) : splitOnTok sep s ≠ [] := by
  unfold splitOnTok
  split
  · simp
  · exact splitGo_ne_nil sep s 0

theorem splitOnTok_cons (sep : List Char) (h : sep ≠ []) (c : Char) (cs : List Char) :
    splitOnTok sep (c :: cs) =
      if sep.isPrefixOf (c :: cs) then
        [] :: splitOnTok sep (List.drop sep.length (c :: cs))
      else
        match splitOnTok sep cs with
        | [] => [[c]]
        | p :: ps => (c :: p) :: ps := by
  have hne : sep.isEmpty = false := by
    cases sep with
    | nil => exact absurd rfl h
    | cons a as => rfl
  have hlen : sep.length = (sep.length - 1) + 1 := by
    cases sep with
    | nil => exact absurd rfl h
    | cons a as => simp
  unfold splitOnTok
  rw [hne]
  simp only [Bool.false_eq_true, if_false]
  rw [splitGo_zero_cons]
  rw [splitGo_eq_drop sep cs (sep.length - 1)]
  rw [hlen, List.drop_succ_cons]
  simp

theorem joinWith_single (sep p : List Char) : joinWith sep [p] = p := rfl

theorem joinWith_cons_head (sep : List Char) (c : Char) (p : List Char)
    (ps : List (List Char)) :
    joinWith sep ((c :: p) :: ps) = c :: joinWith sep (p :: ps) := by
  cases ps with
  | nil => rfl
  | cons q qs => rfl

theorem joinWith_nil_head (sep p : List Char) (ps : List (List Char)) :
    joinWith sep ([] :: p :: ps) = sep ++ joinWith sep (p :: ps) := rfl

/-- The implemented engine agrees with the reference engine of the spec:
leftmost non-overlapping global replacement is `new.join(s.split(old))`. -/
theorem replaceAll_eq_strReplace (old new : List Char) (h : old ≠ []) :
    ∀ n s, s.length ≤ n → replaceAll old new s = strReplace old new s := by
  intro n
  induction n with
  | zero =>
      intro s hs
      have hsnil : s = [] := List.length_eq_zero.1 (Nat.le_zero.1 hs)
      subst hsnil
      rw [replaceAll_nil]
      unfold strReplace
      rw [splitOnTok_nil old h]
      rfl
  | succ n ih =>
      intro s hs
      cases s with
      | nil =>
          rw [replaceAll_nil]
          unfold strReplace
          rw [splitOnTok_nil old h]
          rfl
      | cons c cs =>
          rw [replaceAll_cons old new h]
          unfold strReplace
          rw [splitOnTok_cons old h]
          by_cases hm : old.isPrefixOf (c :: cs)
          · rw [if_pos hm, if_pos hm]
            have hdlen : (List.drop old.length (c :: cs)).length ≤ n := by
              have h0 : 0 < old.length := List.length_pos.2 h
              have := hs
              simp only [List.length_cons, List.length_drop] at this ⊢
              omega
            have := ih (List.drop old.length (c :: cs)) hdlen
            cases hsp : splitOnTok old (List.drop old.length (c :: cs)) with
            | nil => exact absurd hsp (splitOnTok_ne_nil old _)
            | cons p ps =>
                rw [joinWith_nil_head]
                unfold strReplace at this
                rw [hsp] at this
                rw [this]
          · rw [if_neg hm, if_neg hm]
            have hcslen : cs.length ≤ n := by
              have := hs
              simp only [List.length_cons] at this
              omega
            have := ih cs hcslen
            cases hsp : splitOnTok old cs with
            | nil => exact absurd hsp (splitOnTok_ne_nil old _)
            | cons p ps =>
                simp only
                rw [joinWith_cons_head]
                unfold strReplace at this
                rw [hsp] at this
                rw [this]

/-- Matching at the head of an exact occurrence. -/
theorem replaceAll_match_head (old new zs : List Char) (h : old ≠ []) :
    replaceAll old new (old ++ zs) = new ++ replaceAll old new zs := by
  cases old with
  | nil => exact absurd rfl h
  | cons d ds =>
      rw [List.cons_append, replaceAll_cons _ _ h]
      have hm : (d :: ds).isPrefixOf (d :: (ds ++ zs)) :=
        pref_of_bool.2 ⟨zs, by rw [List.cons_append]⟩
      rw [if_pos hm]
      have : d :: (ds ++ zs) = (d :: ds) ++ zs := (List.cons_append d ds zs).symm
      rw [this, List.drop_left]

/-- A block that contains no match of `old` and cannot end in the beginning
of a match passes through `replaceAll` untouched, independently of what
follows it. -/
theorem replaceAll_append_absorb (old new : List Char) (hold : old ≠ []) :
    ∀ xs ys, ¬ old <:+: xs → (∀ t ∈ xs.tails, t ≠ [] → ¬ t <+: old) →
      replaceAll old new (xs ++ ys) = xs ++ replaceAll old new ys := by
  intro xs
  induction xs with
  | nil => intro ys _ _; rw [List.nil_append, List.nil_append]
  | cons c cs ih =>
      intro ys hno hsuf
      have hm : ¬ old.isPrefixOf (c :: (cs ++ ys)) := by
        intro hb
        have hp : old <+: (c :: cs) ++ ys := by
          rw [List.cons_append]
          exact pref_of_bool.1 hb
        rcases pref_total hp (⟨_, rfl⟩ : (c :: cs) <+: (c :: cs) ++ ys) with hcase | hcase
        · exact hno (pref_to_inf hcase)
        · exact hsuf (c :: cs) ((List.mem_tails _ _).2 (List.suffix_refl _))
            (by simp) hcase
      rw [List.cons_append, replaceAll_cons old new hold, if_neg hm]
      have hno' : ¬ old <:+: cs := fun hc => hno (List.infix_cons_iff.2 (Or.inr hc))
      have hsuf' : ∀ t ∈ cs.tails, t ≠ [] → ¬ t <+: old := by
        intro t ht htne
        exact hsuf t ((List.mem_tails _ _).2
          (List.suffix_cons_iff.2 (Or.inr ((List.mem_tails _ _).1 ht)))) htne
      rw [ih ys hno' hsuf']
      rw [List.cons_append]

/-- Two replacement passes commute when their tokens cannot overlap, when
neither replacement can contain or start an occurrence of the other token,
and when neither replacement can complete a begun occurrence of the other
token. -/
theorem replaceAll_comm (o1 n1 o2 n2 : List Char)
    (ho1 : o1 ≠ []) (ho2 : o2 ≠ [])
    (hc12 : ∀ t ∈ o1.tails, t ≠ [] → ¬ t <+: o2)
    (hc21 : ∀ t ∈ o2.tails, t ≠ [] → ¬ t <+: o1)
    (hi12 : ¬ o2 <:+: o1) (hi21 : ¬ o1 <:+: o2)
    (hn12 : ∀ t ∈ n1.tails, t ≠ [] → ¬ t <+: o2) (hni12 : ¬ o2 <:+: n1)
    (hn21 : ∀ t ∈ n2.tails, t ≠ [] → ¬ t <+: o1) (hni21 : ¬ o1 <:+: n2)
    (he12 : ∀ t ∈ o1.tails, t ≠ [] → ¬ t <+: n2) (hl12 : o1.length ≤ n2.length)
    (he21 : ∀ t ∈ o2.tails, t ≠ [] → ¬ t <+: n1) (hl21 : o2.length ≤ n1.length) :
    ∀ n s, s.length ≤ n →
      replaceAll o1 n1 (replaceAll o2 n2 s) = replaceAll o2 n2 (replaceAll o1 n1 s) := by
  intro n
  induction n with
  | zero =>
      intro s hs
      have hsnil : s = [] := List.length_eq_zero.1 (Nat.le_zero.1 hs)
      subst hsnil
      simp only [replaceAll_nil]
  | succ n ih =>
      intro s hs
      cases s with
      | nil => simp only [replaceAll_nil]
      | cons c cs =>
          by_cases m1 : o1.isPrefixOf (c :: cs)
          · obtain ⟨ys, hys⟩ := pref_of_bool.1 m1
            have hyslen : ys.length ≤ n := by
              have h0 : 0 < o1.length := List.length_pos.2 ho1
              have hlen2 : (o1 ++ ys).length = (c :: cs).length := by rw [hys]
              simp only [List.length_append, List.length_cons] at hlen2
              have hs' : cs.length + 1 ≤ n + 1 := by simpa using hs
              omega
            rw [← hys]
            rw [replaceAll_append_absorb o2 n2 ho2 o1 ys hi12 hc12]
            rw [replaceAll_match_head o1 n1 _ ho1]
            rw [replaceAll_match_head o1 n1 _ ho1]
            rw [replaceAll_append_absorb o2 n2 ho2 n1 _ hni12 hn12]
            rw [ih ys hyslen]
          · by_cases m2 : o2.isPrefixOf (c :: cs)
            · obtain ⟨ys, hys⟩ := pref_of_bool.1 m2
              have hyslen : ys.length ≤ n := by
                have h0 : 0 < o2.length := List.length_pos.2 ho2
                have hlen2 : (o2 ++ ys).length = (c :: cs).length := by rw [hys]
                simp only [List.length_append, List.length_cons] at hlen2
                have hs' : cs.length + 1 ≤ n + 1 := by simpa using hs
                omega
              rw [← hys]
              rw [replaceAll_append_absorb o1 n1 ho1 o2 ys hi21 hc21]
              rw [replaceAll_match_head o2 n2 _ ho2]
              rw [replaceAll_match_head o2 n2 _ ho2]
              rw [replaceAll_append_absorb o1 n1 ho1 n2 _ hni21 hn21]
              rw [ih ys hyslen]
            · have hcslen : cs.length ≤ n := by
                have := hs
                simp only [List.length_cons] at this
                omega
              rw [replaceAll_cons o2 n2 ho2 c cs, if_neg m2]
              rw [replaceAll_cons o1 n1 ho1 c cs, if_neg m1]
              have m1' : ¬ o1.isPrefixOf (c :: replaceAll o2 n2 cs) := by
                intro hb
                have hp := pref_of_bool.1 hb
                apply m1
                apply pref_of_bool.2
                cases o1 with
                | nil => exact absurd rfl ho1
                | cons t0 ts =>
                    rw [List.cons_prefix_cons] at hp
                    obtain ⟨rfl, hts⟩ := hp
                    by_cases htsne : ts = []
                    · subst htsne
                      exact ⟨cs, rfl⟩
                    · have := prefix_transfer o2 n2 (t0 :: ts) hl12 he12
                        cs.length cs (Nat.le_refl _) ts ⟨[t0], rfl⟩ htsne hts
                      exact List.cons_prefix_cons.2 ⟨rfl, this⟩
              have m2' : ¬ o2.isPrefixOf (c :: replaceAll o1 n1 cs) := by
                intro hb
                have hp := pref_of_bool.1 hb
                apply m2
                apply pref_of_bool.2
                cases o2 with
                | nil => exact absurd rfl ho2
                | cons t0 ts =>
                    rw [List.cons_prefix_cons] at hp
                    obtain ⟨rfl, hts⟩ := hp
                    by_cases htsne : ts = []
                    · subst htsne
                      exact ⟨cs, rfl⟩
                    · have := prefix_transfer o1 n1 (t0 :: ts) hl21 he21
                        cs.length cs (Nat.le_refl _) ts ⟨[t0], rfl⟩ htsne hts
                      exact List.cons_prefix_cons.2 ⟨rfl, this⟩
              rw [replaceAll_cons o1 n1 ho1 c (replaceAll o2 n2 cs), if_neg m1']
              rw [replaceAll_cons o2 n2 ho2 c (replaceAll o1 n1 cs), if_neg m2']
              rw [ih cs hcslen]

theorem reSub_ok (old new : List Char) (ho : old ≠ [])
    (ht : templExpand new = some new) (s : List Char) :
    reSubEscaped old new s = some (strReplace old new s) := by
  unfold reSubEscaped
  rw [ht]
  simp only [Option.map_some']
  rw [replaceAll_eq_strReplace old new ho s.length s (Nat.le_refl _)]

/-- Claim C1: the substitution engine replaces every literal occurrence of
each old token ("periodic1", "periodic2", "periodic3") with its
corresponding new token, treating the token as literal text, applying the
pairs one at a time in table order with each pass operating on the output
of the previous pass: the run is the sequential composition of the three
passes, and no occurrence of any old token survives it. -/
theorem claim_C1 (s : List Char) :
    applyReplacements s =
      replaceAll old3 new3 (replaceAll old2 new2 (replaceAll old1 new1 s)) ∧
    ¬ old1 <:+: applyReplacements s ∧
    ¬ old2 <:+: applyReplacements s ∧
    ¬ old3 <:+: applyReplacements s :=
  ⟨applyReplacements_eq s, no_old1_applyReplacements s,
   no_old2_applyReplacements s, no_old3_applyReplacements s⟩

/-- Claim C2: on a directory holding `a.msh` with content
"periodic1 periodic2 periodic3" and `b.txt` with content "periodic1", one
run rewrites `a.msh` to "periodicx periodicz periodicy", leaves `b.txt`
untouched, and reports only `a.msh`. -/
theorem claim_C2 :
    replacePeriodicInMsh
      { target := some [DirEntry.file fileA, DirEntry.file fileB], elsewhere := [] } =
      ({ target := some [DirEntry.file fileA2, DirEntry.file fileB], elsewhere := [] },
       [Msg.processed "a.msh".toList]) := by
  decide

/-- Claim C3: applying the fixed three-pair substitution table twice yields
the same result as applying it once. -/
theorem claim_C3 (content : List Char) :
    applyReplacements (applyReplacements content) = applyReplacements content :=
  applyReplacements_fixpoint (applyReplacements content)
    (no_old1_applyReplacements content) (no_old2_applyReplacements content)
    (no_old3_applyReplacements content)

/-- Claim C4: when the target directory does not exist (or is not a
directory), the run aborts before any file I/O — the filesystem is
returned unchanged — and exactly one diagnostic message is emitted. -/
theorem claim_C4 (fs : FileSys) (h : fs.target = none) :
    replacePeriodicInMsh fs = (fs, [Msg.dirNotFound]) ∧
    (replacePeriodicInMsh fs).2.length = 1 := by
  have he : replacePeriodicInMsh fs = (fs, [Msg.dirNotFound]) := by
    unfold replacePeriodicInMsh
    rw [h]
  refine ⟨he, ?_⟩
  rw [he]
  rfl

theorem claim_C4_witness :
    replacePeriodicInMsh { target := none, elsewhere := [] } =
      ({ target := none, elsewhere := [] }, [Msg.dirNotFound]) ∧
    (replacePeriodicInMsh { target := none, elsewhere := [] }).2.length = 1 :=
  claim_C4 { target := none, elsewhere := [] } rfl

/-- Claim C5: a failure on one matching file is caught and reported with
the file's name and an error description, and the batch continues: the run
processes every listed entry independently (its output listing and console
lines are the entrywise images), an unreadable matching file produces
exactly one error line naming it, and when the directory holds exactly an
unreadable matching file `f` and a valid matching file `g`, the run still
transforms and reports `g` while reporting `f` as failed. -/
theorem claim_C5 (fs : FileSys) (entries : List DirEntry) (f g : FSFile)
    (htgt : fs.target = some entries)
    (hf1 : endsWithMsh f.name = true) (hf2 : f.readOk = false)
    (hg1 : endsWithMsh g.name = true) (hg2 : g.readOk = true) (hg3 : g.writeOk = true) :
    ((replacePeriodicInMsh fs).1.target =
        some (entries.map fun e => (processEntry e).1) ∧
     (replacePeriodicInMsh fs).2 =
        (entries.map fun e => (processEntry e).2).flatten) ∧
    processEntry (DirEntry.file f) =
      (DirEntry.file f, [Msg.errorProcessing f.name ErrKind.readOrDecodeError]) ∧
    (entries = [DirEntry.file f, DirEntry.file g] →
      replacePeriodicInMsh fs =
        ({ fs with target := some [DirEntry.file f,
            DirEntry.file { g with content := applyReplacements g.content }] },
         [Msg.errorProcessing f.name ErrKind.readOrDecodeError,
          Msg.processed g.name])) := by
  have hrun :
      replacePeriodicInMsh fs =
        ({ fs with target := some (entries.map fun e => (processEntry e).1) },
         (entries.map fun e => (processEntry e).2).flatten) := by
    unfold replacePeriodicInMsh
    rw [htgt]
  have hpf : processEntry (DirEntry.file f) =
      (DirEntry.file f, [Msg.errorProcessing f.name ErrKind.readOrDecodeError]) := by
    simp [processEntry, hf1, hf2]
  have hpg : processEntry (DirEntry.file g) =
      (DirEntry.file { g with content := applyReplacements g.content },
       [Msg.processed g.name]) := by
    simp [processEntry, hg1, hg2, hg3]
  refine ⟨⟨by rw [hrun], by rw [hrun]⟩, hpf, ?_⟩
  intro hent
  subst hent
  rw [hrun]
  simp only [List.map_cons, List.map_nil, hpf, hpg, List.flatten]
  rfl

theorem claim_C5_witness :
    ((replacePeriodicInMsh
        { target := some [DirEntry.file fileBad, DirEntry.file fileGood],
          elsewhere := [] }).1.target =
        some ([DirEntry.file fileBad, DirEntry.file fileGood].map
          fun e => (processEntry e).1) ∧
     (replacePeriodicInMsh
        { target := some [DirEntry.file fileBad, DirEntry.file fileGood],
          elsewhere := [] }).2 =
        ([DirEntry.file fileBad, DirEntry.file fileGood].map
          fun e => (processEntry e).2).flatten) ∧
    processEntry (DirEntry.file fileBad) =
      (DirEntry.file fileBad,
       [Msg.errorProcessing fileBad.name ErrKind.readOrDecodeError]) ∧
    ([DirEntry.file fileBad, DirEntry.file fileGood] =
        [DirEntry.file fileBad, DirEntry.file fileGood] →
      replacePeriodicInMsh
        { target := some [DirEntry.file fileBad, DirEntry.file fileGood],
          elsewhere := [] } =
        ({ target := some [DirEntry.file fileBad,
            DirEntry.file { fileGood with content := applyReplacements fileGood.content }],
           elsewhere := [] },
         [Msg.errorProcessing fileBad.name ErrKind.readOrDecodeError,
          Msg.processed fileGood.name])) :=
  claim_C5 _ _ fileBad fileGood rfl (by decide) rfl (by decide) rfl rfl

/-- Claim C6: a file in the target directory whose name does not end in
".msh" is untouched by a run: the files outside the directory are
unchanged, the directory is updated entrywise, and the processing step
maps such a file to itself with no read, write or output. -/
theorem claim_C6 (fs : FileSys) (entries : List DirEntry) (f : FSFile)
    (htgt : fs.target = some entries)
    (hf : endsWithMsh f.name = false) :
    (replacePeriodicInMsh fs).1.elsewhere = fs.elsewhere ∧
    (replacePeriodicInMsh fs).1.target =
      some (entries.map fun e => (processEntry e).1) ∧
    processEntry (DirEntry.file f) = (DirEntry.file f, []) := by
  have hrun :
      replacePeriodicInMsh fs =
        ({ fs with target := some (entries.map fun e => (processEntry e).1) },
         (entries.map fun e => (processEntry e).2).flatten) := by
    unfold replacePeriodicInMsh
    rw [htgt]
  refine ⟨by rw [hrun], by rw [hrun], ?_⟩
  simp [processEntry, hf]

theorem claim_C6_witness :
    (replacePeriodicInMsh
      { target := some [DirEntry.file fileB], elsewhere := [] }).1.elsewhere = [] ∧
    (replacePeriodicInMsh
      { target := some [DirEntry.file fileB], elsewhere := [] }).1.target =
      some ([DirEntry.file fileB].map fun e => (processEntry e).1) ∧
    processEntry (DirEntry.file fileB) = (DirEntry.file fileB, []) :=
  claim_C6 _ _ fileB rfl (by decide)

/-- Claim C7: a matching, readable and writable file whose content contains
none of the old tokens is left with its content unchanged, yet is still
reported with the success message — the report is on attempt, not on
actual mutation. -/
theorem claim_C7 (f : FSFile)
    (hmsh : endsWithMsh f.name = true) (hr : f.readOk = true) (hw : f.writeOk = true)
    (h1 : ¬ old1 <:+: f.content) (h2 : ¬ old2 <:+: f.content)
    (h3 : ¬ old3 <:+: f.content) :
    processEntry (DirEntry.file f) = (DirEntry.file f, [Msg.processed f.name]) := by
  obtain ⟨nm, ct, ro, wo⟩ := f
  have hfix : applyReplacements ct = ct := by
    rw [applyReplacements_eq ct]
    rw [replaceAll_eq_of_no_occ old1 new1 ct h1]
    rw [replaceAll_eq_of_no_occ old2 new2 ct h2]
    rw [replaceAll_eq_of_no_occ old3 new3 ct h3]
  have hmsh2 : endsWithMsh nm = true := hmsh
  have hr2 : ro = true := hr
  have hw2 : wo = true := hw
  subst hr2
  subst hw2
  simp [processEntry, hmsh2, hfix]

theorem claim_C7_witness :
    processEntry (DirEntry.file filePlain) =
      (DirEntry.file filePlain, [Msg.processed filePlain.name]) :=
  claim_C7 filePlain (by decide) rfl rfl (by decide) (by decide) (by decide)

/-- Claim C8, as stated, is false: a subdirectory whose name ends in ".msh"
is not skipped silently — the program attempts it, `open` fails, and an
error line is printed for it.  Concretely, a directory whose only entry is
a subdirectory named "d.msh" produces one output line. -/
theorem claim_C8_counterexample :
    (replacePeriodicInMsh
        { target := some [DirEntry.subdir "d.msh".toList], elsewhere := [] }).2 =
      [Msg.errorProcessing "d.msh".toList ErrKind.isADirectory] ∧
    (replacePeriodicInMsh
        { target := some [DirEntry.subdir "d.msh".toList], elsewhere := [] }).2 ≠ [] := by
  decide

/-- Claim C8, amended: entries that are files with other extensions, and
subdirectories whose names do not end in ".msh", are skipped silently (no
processing attempt, no output line), and the run touches only the top-level
listing (no recursion); a subdirectory whose name does end in ".msh" is
instead attempted and reported as an error, though it is left unchanged and
the batch continues. -/
theorem claim_C8 (fs : FileSys) (entries : List DirEntry) (f : FSFile)
    (d n : List Char)
    (htgt : fs.target = some entries)
    (hf : endsWithMsh f.name = false)
    (hd : endsWithMsh d = false)
    (hn : endsWithMsh n = true) :
    processEntry (DirEntry.file f) = (DirEntry.file f, []) ∧
    processEntry (DirEntry.subdir d) = (DirEntry.subdir d, []) ∧
    processEntry (DirEntry.subdir n) =
      (DirEntry.subdir n, [Msg.errorProcessing n ErrKind.isADirectory]) ∧
    (replacePeriodicInMsh fs).1.target =
      some (entries.map fun e => (processEntry e).1) := by
  refine ⟨?_, ?_, ?_, ?_⟩
  · simp [processEntry, hf]
  · simp [processEntry, hd]
  · simp [processEntry, hn]
  · unfold replacePeriodicInMsh
    rw [htgt]

theorem claim_C8_witness :
    processEntry (DirEntry.file fileNotes) = (DirEntry.file fileNotes, []) ∧
    processEntry (DirEntry.subdir "sub".toList) =
      (DirEntry.subdir "sub".toList, []) ∧
    processEntry (DirEntry.subdir "d.msh".toList) =
      (DirEntry.subdir "d.msh".toList,
       [Msg.errorProcessing "d.msh".toList ErrKind.isADirectory]) ∧
    (replacePeriodicInMsh
      { target := some [DirEntry.subdir "sub".toList], elsewhere := [] }).1.target =
      some ([DirEntry.subdir "sub".toList].map fun e => (processEntry e).1) :=
  claim_C8 _ [DirEntry.subdir "sub".toList] fileNotes "sub".toList "d.msh".toList
    rfl (by decide) (by decide) (by decide)

/-- Claim C9: the implemented engine — `re.sub` on the escaped old token,
with the replacement template expanded — produces exactly the same output
as the naive literal replacement `str.replace` for each of the three fixed
pairs: the tokens contain no regex metacharacters and the replacements no
backslash, so the regex engine refines the literal reference engine. -/
theorem claim_C9 (s : List Char) :
    reSubEscaped old1 new1 s = some (strReplace old1 new1 s) ∧
    reSubEscaped old2 new2 s = some (strReplace old2 new2 s) ∧
    reSubEscaped old3 new3 s = some (strReplace old3 new3 s) :=
  ⟨reSub_ok old1 new1 (by decide) (by decide) s,
   reSub_ok old2 new2 (by decide) (by decide) s,
   reSub_ok old3 new3 (by decide) (by decide) s⟩

/-- Claim C10: for the fixed table the three passes commute — applying the
pairs in any of the six orders yields the same output as the table-order
run. -/
theorem claim_C10 (s : List Char) :
    applyReplacements s =
      replaceAll old3 new3 (replaceAll old2 new2 (replaceAll old1 new1 s)) ∧
    applyReplacements s =
      replaceAll old3 new3 (replaceAll old1 new1 (replaceAll old2 new2 s)) ∧
    applyReplacements s =
      replaceAll old2 new2 (replaceAll old3 new3 (replaceAll old1 new1 s)) ∧
    applyReplacements s =
      replaceAll old2 new2 (replaceAll old1 new1 (replaceAll old3 new3 s)) ∧
    applyReplacements s =
      replaceAll old1 new1 (replaceAll old3 new3 (replaceAll old2 new2 s)) ∧
    applyReplacements s =
      replaceAll old1 new1 (replaceAll old2 new2 (replaceAll old3 new3 s)) := by
  have c12 : ∀ t : List Char,
      replaceAll old1 new1 (replaceAll old2 new2 t) =
        replaceAll old2 new2 (replaceAll old1 new1 t) := fun t =>
    replaceAll_comm old1 new1 old2 new2 (by decide) (by decide) (by decide)
      (by decide) (by decide) (by decide) (by decide) (by decide) (by decide)
      (by decide) (by decide) (by decide) (by decide) (by decide)
      t.length t (Nat.le_refl _)
  have c13 : ∀ t : List Char,
      replaceAll old1 new1 (replaceAll old3 new3 t) =
        replaceAll old3 new3 (replaceAll old1 new1 t) := fun t =>
    replaceAll_comm old1 new1 old3 new3 (by decide) (by decide) (by decide)
      (by decide) (by decide) (by decide) (by decide) (by decide) (by decide)
      (by decide) (by decide) (by decide) (by decide) (by decide)
      t.length t (Nat.le_refl _)
  have c23 : ∀ t : List Char,
      replaceAll old2 new2 (replaceAll old3 new3 t) =
        replaceAll old3 new3 (replaceAll old2 new2 t) := fun t =>
    replaceAll_comm old2 new2 old3 new3 (by decide) (by decide) (by decide)
      (by decide) (by decide) (by decide) (by decide) (by decide) (by decide)
      (by decide) (by decide) (by decide) (by decide) (by decide)
      t.length t (Nat.le_refl _)
  have e1 := applyReplacements_eq s
  have e2 : applyReplacements s =
      replaceAll old3 new3 (replaceAll old1 new1 (replaceAll old2 new2 s)) :=
    e1.trans (congrArg (replaceAll old3 new3) (c12 s).symm)
  have e3 : applyReplacements s =
      replaceAll old2 new2 (replaceAll old3 new3 (replaceAll old1 new1 s)) :=
    e1.trans (c23 (replaceAll old1 new1 s)).symm
  have e4 : applyReplacements s =
      replaceAll old2 new2 (replaceAll old1 new1 (replaceAll old3 new3 s)) :=
    e3.trans (congrArg (replaceAll old2 new2) (c13 s).symm)
  have e5 : applyReplacements s =
      replaceAll old1 new1 (replaceAll old3 new3 (replaceAll old2 new2 s)) :=
    e2.trans (c13 (replaceAll old2 new2 s)).symm
  have e6 : applyReplacements s =
      replaceAll old1 new1 (replaceAll old2 new2 (replaceAll old3 new3 s)) :=
    e5.trans (congrArg (replaceAll old1 new1) (c23 s).symm)
  exact ⟨e1, e2, e3, e4, e5, e6⟩

end ReplaceString
